import Mathlib

/-!
Verification development for the subtitle-image extraction core.

The definitions below are a shallow embedding of `extractor.py` (timestamp
codec `frames_to_time_str`, the per-scene subtitle-interval state machine in
`main`, and the driver's directory handling) together with the filename
parsing performed downstream in `ocr_processor.py`.  Frame indices are
embedded as `ℤ` (Python ints), floating-point quantities (`fps`, thresholds,
elapsed seconds) as `ℚ`, pixel blocks as lists of rows of `ℕ`.
-/

attribute [local semireducible] Nat.gcd Rat.mul Rat.add Rat.sub Rat.inv Rat.ofScientific

/-- Truncation of a rational toward zero, modelling Python `int()` applied to
a float and the integer part returned by `np.modf`. -/
def ratTrunc (q : ℚ) : ℤ := if 0 ≤ q then ⌊q⌋ else -⌊-q⌋

/-- Little-endian decimal digits, computed with structural fuel (the fuel
`n` itself always suffices); equal to `Nat.digits 10` by
`natDigitsLE_eq_digits` below. -/
def natDigitsAux : ℕ → ℕ → List ℕ
  | 0, _ => []
  | _ + 1, 0 => []
  | fuel + 1, n + 1 => (n + 1) % 10 :: natDigitsAux fuel ((n + 1) / 10)

/-- Little-endian decimal digits of a natural number. -/
def natDigitsLE (n : ℕ) : List ℕ := natDigitsAux n n

/-- Decimal digit characters of a natural number, most significant first
(empty for 0, which is always padded below). -/
def natDigitChars (n : ℕ) : List Char := ((natDigitsLE n).reverse).map Nat.digitChar

/-- Zero padding to width `w` of a nonnegative integer's decimal digits,
modelling Python `f"{n:0wd}"` for `n ≥ 0` (wider numbers are not truncated). -/
def padNat (w : ℕ) (n : ℕ) : List Char :=
  List.replicate (w - (natDigitChars n).length) '0' ++ natDigitChars n

/-- Python `f"{n:0wd}"` for an integer: a sign, when present, occupies part of
the field width and zero padding goes between the sign and the digits. -/
def padInt (w : ℕ) (n : ℤ) : List Char :=
  if n < 0 then '-' :: padNat (w - 1) n.natAbs else padNat w n.toNat

/-- Field values (hours, minutes, seconds, milliseconds) computed by
`frames_to_time_str` (extractor.py lines 103-113): substitutes `fps = 25`
when `fps == 0`, takes elapsed seconds `frame_count / fps`, splits into the
`np.modf` whole/fractional parts, and divmods the whole seconds.  Here `/`
and `%` on `ℤ` agree with Python `divmod` since the divisors are positive. -/
structure TimeFields where
  hours : ℤ
  minutes : ℤ
  seconds : ℤ
  ms : ℤ
deriving DecidableEq

/-- Field computation of the timestamp codec, see `TimeFields`. -/
def timeFields (frame_count : ℤ) (fps : ℚ) : TimeFields :=
  let fps' : ℚ := if fps = 0 then 25 else fps
  let seconds : ℚ := (frame_count : ℚ) / fps'
  let whole : ℤ := ratTrunc seconds
  let frac : ℚ := seconds - (whole : ℚ)
  let ms : ℤ := ratTrunc (frac * 1000)
  let hours : ℤ := whole / 3600
  let remainder : ℤ := whole % 3600
  let minutes : ℤ := remainder / 60
  let secs : ℤ := remainder % 60
  ⟨hours, minutes, secs, ms⟩

/-- Character list of the `HH_MM_SS_mmm` timestamp string. -/
def timeChars (frame_count : ℤ) (fps : ℚ) : List Char :=
  let t := timeFields frame_count fps
  padInt 2 t.hours ++ '_' :: padInt 2 t.minutes ++ '_' :: padInt 2 t.seconds
    ++ '_' :: padInt 3 t.ms

/-- Embedding of `frames_to_time_str` (extractor.py lines 103-113). -/
def frames_to_time_str (frame_count : ℤ) (fps : ℚ) : String :=
  String.mk (timeChars frame_count fps)

/-- Subtitle-format timestamp `HH:MM:SS,mmm` built from the same fields; this
is what `ocr_processor.py` reconstructs from a filename. -/
def srtTimeChars (frame_count : ℤ) (fps : ℚ) : List Char :=
  let t := timeFields frame_count fps
  padInt 2 t.hours ++ ':' :: padInt 2 t.minutes ++ ':' :: padInt 2 t.seconds
    ++ ',' :: padInt 3 t.ms

/-- String form of `srtTimeChars`. -/
def srtTimeStr (frame_count : ℤ) (fps : ℚ) : String :=
  String.mk (srtTimeChars frame_count fps)

/-- A cropped sub-region of a frame: rows of pixel intensity sums.  For the
diff computation only the aggregate absolute difference matters; a pixel is
embedded as a `ℕ` (cv2.absdiff on uint8 data is the exact absolute
difference, np.sum adds everything). -/
abbrev SubRegion := List (List ℕ)

/-- Embedding of `np.sum(cv2.absdiff(sub_region, last_img))` (extractor.py
lines 169-170). -/
def absdiffSum (a b : SubRegion) : ℕ :=
  (List.zipWith (fun r1 r2 => (List.zipWith (fun x y => max x y - min x y) r1 r2).sum) a b).sum

/-- An emitted subtitle interval: start/end frame indices and the
representative image persisted for it. -/
structure SubtitleInterval where
  startFrame : ℤ
  endFrame : ℤ
  image : SubRegion
deriving DecidableEq

/-- Per-scene detector state: `last_img`, `subtitle_present`, and
`subtitle_start_frame` from the loop in extractor.py lines 156-188. -/
structure DetState where
  lastImg : Option SubRegion
  subtitlePresent : Bool
  subtitleStartFrame : ℤ
deriving DecidableEq

/-- Fresh detector state at the start of each scene (extractor.py lines
156-158). -/
def initState : DetState := ⟨none, false, 0⟩

/-- The debounce floor `int(fps * 0.2)` used in the emission checks
(extractor.py lines 179 and 192). -/
def minDurationFrames (fps : ℚ) : ℤ := ratTrunc (fps * 0.2)

/-- One iteration of the per-frame loop body (extractor.py lines 166-188):
seed `last_img` on the first frame, otherwise compare, open/extend/close the
interval, and always store the current sub-region as `last_img`. -/
def procFrame (changeThreshold : ℚ) (fps : ℚ) (frameNumber : ℤ) (subRegion : SubRegion)
    (s : DetState) : DetState × List SubtitleInterval :=
  match s.lastImg with
  | none => ({ s with lastImg := some subRegion }, [])
  | some lastImg =>
    if (absdiffSum subRegion lastImg : ℚ) > changeThreshold then
      if s.subtitlePresent then
        ({ s with lastImg := some subRegion }, [])
      else
        ({ lastImg := some subRegion, subtitlePresent := true,
           subtitleStartFrame := frameNumber }, [])
    else
      if s.subtitlePresent then
        let subEndFrame : ℤ := frameNumber - 1
        let ems : List SubtitleInterval :=
          if subEndFrame > s.subtitleStartFrame + minDurationFrames fps then
            [⟨s.subtitleStartFrame, subEndFrame, lastImg⟩]
          else []
        ({ lastImg := some subRegion, subtitlePresent := false,
           subtitleStartFrame := s.subtitleStartFrame }, ems)
      else
        ({ s with lastImg := some subRegion }, [])

/-- End-of-scene flush (extractor.py lines 190-198). -/
def sceneFlush (fps : ℚ) (sceneEndFrame : ℤ) (s : DetState) : List SubtitleInterval :=
  if s.subtitlePresent then
    match s.lastImg with
    | some lastImg =>
      let subEndFrame : ℤ := sceneEndFrame - 1
      if subEndFrame > s.subtitleStartFrame + minDurationFrames fps then
        [⟨s.subtitleStartFrame, subEndFrame, lastImg⟩]
      else []
    | none => []
  else []

/-- Running the loop body over a list of (frame index, sub-region) pairs,
collecting emissions in order. -/
def runFrames (cth fps : ℚ) : List (ℤ × SubRegion) → DetState → DetState × List SubtitleInterval
  | [], s => (s, [])
  | (idx, img) :: rest, s =>
    let step := procFrame cth fps idx img s
    let restRun := runFrames cth fps rest step.1
    (restRun.1, step.2 ++ restRun.2)

/-- Frame indices of a scene window, `range(start, end)` in the source. -/
def sceneFrameIdxs (startF endF : ℕ) : List ℤ :=
  (List.range' startF (endF - startF)).map (fun n => Int.ofNat n)

/-- Full processing of one scene (extractor.py lines 153-198): run the
detector over the frames that could be decoded (a stream shorter than the
window models a mid-scene decode failure and the `break`), then flush.  The
flush uses `scene.end_frame - 1` whether or not decoding completed. -/
def processScene (cth fps : ℚ) (startF endF : ℕ) (frames : List SubRegion) :
    List SubtitleInterval :=
  let run := runFrames cth fps ((sceneFrameIdxs startF endF).zip frames) initState
  run.2 ++ sceneFlush fps endF run.1

/-- The subtitle rectangle `(y1, y2, x1, x2)` in original pixel coordinates. -/
structure Rectangle where
  y1 : ℕ
  y2 : ℕ
  x1 : ℕ
  x2 : ℕ
deriving DecidableEq

/-- A full decoded video frame, rows of pixels. -/
abbrev Frame := List (List ℕ)

/-- Embedding of the numpy slice `frame[y1:y2, x1:x2]` (extractor.py line
166); out-of-range bounds truncate exactly as Python slices do. -/
def cropFrame (r : Rectangle) (frame : Frame) : SubRegion :=
  ((frame.drop r.y1).take (r.y2 - r.y1)).map (fun row => (row.drop r.x1).take (r.x2 - r.x1))

/-- Abstract state of the output directory: whether it exists and the list of
file names inside it. -/
structure FileSys where
  dirExists : Bool
  files : List String
deriving DecidableEq

/-- Distinguishable run outcomes of the driver `main` in extractor.py. -/
inductive Outcome where
  | configError
  | videoError
  | nothingToExtract
  | success (totalImagesSaved : ℕ)
deriving DecidableEq

/-- Python `f.endswith(suffix)` on file names. -/
def pyEndsWith (f : String) (suffix : String) : Bool := suffix.data.isSuffixOf f.data

/-- Directory preparation (extractor.py lines 121-128): create the temp
folder when absent, otherwise delete every `.png` file in it. -/
def wipeTempFolder (fs : FileSys) : FileSys :=
  if fs.dirExists then { fs with files := fs.files.filter (fun f => !(pyEndsWith f ".png")) }
  else { dirExists := true, files := [] }

/-- Artifact filename `{start_time_str}__{end_time_str}.png` (extractor.py
lines 180-182). -/
def mkImgName (startF endF : ℤ) (fps : ℚ) : String :=
  String.mk (timeChars startF fps ++ '_' :: '_' :: timeChars endF fps ++ ['.', 'p', 'n', 'g'])

/-- One scene window together with the frames that could be decoded from it. -/
structure SceneInput where
  startFrame : ℕ
  endFrame : ℕ
  frames : List Frame
deriving DecidableEq

/-- Embedding of the driver `main` (extractor.py lines 115-201): prepare the
directory, resolve the crop rectangle (the interactive selection needs a
readable video), open the video for scene detection, handle zero scenes, and
otherwise process every scene and persist each emitted interval. -/
def mainDriver (fs : FileSys) (roi : Option Rectangle) (selection : Option Rectangle)
    (videoOpen : Bool) (fps : ℚ) (changeThreshold : ℚ) (scenes : List SceneInput) :
    FileSys × Outcome :=
  let fs1 := wipeTempFolder fs
  match roi.orElse (fun _ => if videoOpen then selection else none) with
  | none => (fs1, Outcome.configError)
  | some rect =>
    if videoOpen = false then (fs1, Outcome.videoError)
    else if scenes.isEmpty then (fs1, Outcome.nothingToExtract)
    else
      let intervals := (scenes.map (fun sc =>
        processScene changeThreshold fps sc.startFrame sc.endFrame
          (sc.frames.map (cropFrame rect)))).flatten
      let names := intervals.map (fun iv => mkImgName iv.startFrame iv.endFrame fps)
      ({ fs1 with files := fs1.files ++ names }, Outcome.success names.length)

/-- Python `s.split(sep)` for the nonempty separator `c0 :: sepRest`:
non-overlapping occurrences are cut left to right. -/
def pySplit (c0 : Char) (sepRest : List Char) (s : List Char) : List (List Char) :=
  match s with
  | [] => [[]]
  | c :: rest =>
    if (c0 :: sepRest).isPrefixOf (c :: rest) then
      [] :: pySplit c0 sepRest (rest.drop sepRest.length)
    else
      match pySplit c0 sepRest rest with
      | [] => [[c]]
      | t :: ts => (c :: t) :: ts
termination_by s.length
decreasing_by
  all_goals simp [List.length_drop]
  all_goals omega

/-- Python `sep.join(parts)` for a one-character separator. -/
def joinSep (c : Char) : List (List Char) → List Char
  | [] => []
  | [p] => p
  | p :: ps => p ++ c :: joinSep c ps

/-- Dropping the extension as `os.path.splitext(...)[0]` does: everything
before the last dot (names without a dot are kept whole). -/
def stripExtChars (s : List Char) : List Char :=
  let parts := pySplit '.' [] s
  if parts.length ≤ 1 then s else joinSep '.' parts.dropLast

/-- Per-half parsing in ocr_processor.py lines 138-146: split on single
underscores, rejoin all but the last field with the separator replaced by
colons, and append the last field after a comma. -/
def srtOfPart (p : List Char) : List Char :=
  let fields := pySplit '_' [] p
  let hms := joinSep '_' fields.dropLast
  let ms := fields.getLastD []
  hms.map (fun c => if c = '_' then ':' else c) ++ ',' :: ms

/-- Embedding of the filename parsing in ocr_processor.py lines 137-146:
strip the extension, split on a double underscore, and convert each half to a
subtitle-format timestamp. -/
def parseNameSrt (name : String) : String × String :=
  let base := stripExtChars name.data
  let timeParts := pySplit '_' ['_'] base
  (String.mk (srtOfPart timeParts.headI), String.mk (srtOfPart (timeParts.getD 1 [])))

/-- Decidable check that a string has the exact shape
`\d{2}_\d{2}_\d{2}_\d{3}`. -/
def matchesPattern (s : String) : Bool :=
  match s.data with
  | [a, b, u1, c, d, u2, e, f, u3, g, h, i] =>
    a.isDigit && b.isDigit && (u1 == '_') && c.isDigit && d.isDigit && (u2 == '_') &&
    e.isDigit && f.isDigit && (u3 == '_') && g.isDigit && h.isDigit && i.isDigit
  | _ => false

/-- Pixel value stream realizing Scenario A: stable through frame 9, changing
every frame on 10-29, stable from frame 30 on. -/
def scenAPixel (i : ℕ) : ℕ :=
  if i < 10 then 0 else if i < 30 then (if i % 2 = 0 then 1 else 2) else 2

/-- Sub-region stream for Scenario A: a 50-frame scene. -/
def scenAFrames : List SubRegion := (List.range 50).map (fun i => [[scenAPixel i]])

/-- Pixel value stream realizing Scenario B: stable through frame 4, changing
every frame from 5 until the scene ends. -/
def scenBPixel (i : ℕ) : ℕ := if i < 5 then 0 else if i % 2 = 0 then 1 else 2

/-- Sub-region stream for Scenario B: a 20-frame scene. -/
def scenBFrames : List SubRegion := (List.range 20).map (fun i => [[scenBPixel i]])

/-- Numeric value of a digit character (inverse of `Nat.digitChar` on
`'0'..'9'`). -/
def charVal (c : Char) : ℕ := c.toNat - 48

/-- Numeric value of a most-significant-first digit-character block. -/
def blockVal (L : List Char) : ℕ := Nat.ofDigits 10 ((L.map charVal).reverse)

/-- A nonempty block of decimal digit characters. -/
def DigitBlock (L : List Char) : Prop :=
  L ≠ [] ∧ ∀ c ∈ L, ∃ d, d < 10 ∧ c = Nat.digitChar d

/-- No two adjacent occurrences of `c0`, and the list does not end with
`c0`; such a list contains no occurrence of the two-character separator
`[c0, c0]`, not even one overlapping a following separator. -/
def sepSafe (c0 : Char) : List Char → Bool
  | [] => true
  | [c] => c != c0
  | c :: d :: rest => !(c == c0 && d == c0) && sepSafe c0 (d :: rest)

/-- C1: when the detector is `OPEN` and the current frame's diff score falls
to at most the change threshold, it closes the interval with
`end_frame = current_frame_index - 1`, emits it exactly when
`end_frame - start_frame > min_duration_frames` with the previously stored
sub-region as the representative image, and returns to `IDLE` either way; and
on a 50-frame scene at 25 fps whose diff exceeds the threshold at frame 10
and drops below it from frame 30 on, exactly the interval
`{start_frame = 10, end_frame = 29}` is emitted with the frame-29 sub-region
as its image. -/
theorem C1_open_close (cth fps : ℚ) (idx : ℤ) (img last : SubRegion) (s : DetState)
    (hopen : s.subtitlePresent = true) (hlast : s.lastImg = some last)
    (hdiff : (absdiffSum img last : ℚ) ≤ cth) :
    procFrame cth fps idx img s =
      ({ lastImg := some img, subtitlePresent := false,
         subtitleStartFrame := s.subtitleStartFrame },
       if (idx - 1) - s.subtitleStartFrame > minDurationFrames fps then
         [⟨s.subtitleStartFrame, idx - 1, last⟩]
       else []) ∧
    processScene 0 25 0 50 scenAFrames = [⟨10, 29, [[2]]⟩] := by
  refine ⟨?_, by decide⟩
  have hcond : (idx - 1 > s.subtitleStartFrame + minDurationFrames fps) ↔
      ((idx - 1) - s.subtitleStartFrame > minDurationFrames fps) := by omega
  simp only [procFrame, hlast, hopen, if_pos, if_neg (not_lt.mpr hdiff), if_true]
  rw [if_congr hcond rfl rfl]

/-- C1 witness: the theorem instantiated at a concrete open state and a
below-threshold diff. -/
theorem C1_open_close_witness :
    procFrame 5 25 31 [[7]] ⟨some [[7]], true, 10⟩ =
      ({ lastImg := some [[7]], subtitlePresent := false, subtitleStartFrame := 10 },
       if (31 - 1 : ℤ) - 10 > minDurationFrames 25 then [⟨10, 30, [[7]]⟩] else []) ∧
    processScene 0 25 0 50 scenAFrames = [⟨10, 29, [[2]]⟩] :=
  C1_open_close 5 25 31 [[7]] [[7]] ⟨some [[7]], true, 10⟩ rfl rfl (by norm_num [absdiffSum])

/-- C2: when the frame stream of a scene ends while the detector is `OPEN`,
the flush sets `end_frame = scene.end_frame - 1`, applies the same duration
check (emit iff `end_frame - start_frame > min_duration_frames`) and uses the
last stored sub-region as the representative image; e.g. a threshold crossing
at frame 5 never followed by a drop before the scene ends at frame 20 yields
the interval `{start_frame = 5, end_frame = 19}`. -/
theorem C2_end_of_scene_flush (fps : ℚ) (endF : ℤ) (s : DetState) (last : SubRegion)
    (hopen : s.subtitlePresent = true) (hlast : s.lastImg = some last) :
    sceneFlush fps endF s =
      (if (endF - 1) - s.subtitleStartFrame > minDurationFrames fps then
        [⟨s.subtitleStartFrame, endF - 1, last⟩]
      else []) ∧
    processScene 0 25 0 20 scenBFrames = [⟨5, 19, [[2]]⟩] := by
  refine ⟨?_, by decide⟩
  have hcond : (endF - 1 > s.subtitleStartFrame + minDurationFrames fps) ↔
      ((endF - 1) - s.subtitleStartFrame > minDurationFrames fps) := by omega
  simp only [sceneFlush, hopen, hlast, if_true]
  rw [if_congr hcond rfl rfl]

/-- C2 witness: the theorem instantiated at a concrete open state. -/
theorem C2_end_of_scene_flush_witness :
    sceneFlush 25 20 ⟨some [[2]], true, 5⟩ =
      (if (20 - 1 : ℤ) - 5 > minDurationFrames 25 then [⟨5, 19, [[2]]⟩] else []) ∧
    processScene 0 25 0 20 scenBFrames = [⟨5, 19, [[2]]⟩] :=
  C2_end_of_scene_flush 25 20 ⟨some [[2]], true, 5⟩ [[2]] rfl rfl

/-- C3: an interval whose candidate duration satisfies
`end_frame - start_frame ≤ min_duration_frames`, with
`min_duration_frames = floor(fps * 0.2)`, produces no emission, both on a
mid-scene close and on an end-of-scene flush. -/
theorem C3_debounce (fps cth : ℚ) (s : DetState) (idx endF : ℤ) (img : SubRegion)
    (hfps : 0 ≤ fps)
    (hshort : (idx - 1) - s.subtitleStartFrame ≤ minDurationFrames fps)
    (hshortFlush : (endF - 1) - s.subtitleStartFrame ≤ minDurationFrames fps) :
    minDurationFrames fps = ⌊fps * 0.2⌋ ∧
    (procFrame cth fps idx img s).2 = [] ∧
    sceneFlush fps endF s = [] := by
  refine ⟨?_, ?_, ?_⟩
  · unfold minDurationFrames ratTrunc
    rw [if_pos (by positivity)]
  · rcases s with ⟨li, sp, st⟩
    dsimp only at hshort
    rcases li with _ | last
    · simp [procFrame]
    · by_cases hd : (absdiffSum img last : ℚ) > cth
      · cases sp <;> simp [procFrame, hd]
      · cases sp <;> simp [procFrame, hd]
        omega
  · rcases s with ⟨li, sp, st⟩
    dsimp only at hshortFlush
    rcases li with _ | last <;> cases sp <;> simp [sceneFlush] <;> omega

/-- C3 witness: a one-frame candidate interval at 25 fps is dropped in both
paths. -/
theorem C3_debounce_witness :
    minDurationFrames 25 = ⌊(25 * 0.2 : ℚ)⌋ ∧
    (procFrame 0 25 11 [[1]] ⟨some [[1]], true, 10⟩).2 = [] ∧
    sceneFlush 25 12 ⟨some [[1]], true, 10⟩ = [] :=
  C3_debounce 25 0 ⟨some [[1]], true, 10⟩ 11 12 [[1]] (by norm_num) (by decide) (by decide)

/-- C8: per-step transition characterization giving the alternation
invariant: from `IDLE` a below-threshold diff stays `IDLE` with no emission;
from `IDLE` a single above-threshold diff enters `OPEN` recording the current
frame; from `OPEN` an above-threshold diff stays in the same episode (start
frame unchanged, no re-entry); and an emission happens only on an
`OPEN` to `IDLE` close. -/
theorem C8_alternation (cth fps : ℚ) (idx : ℤ) (img last : SubRegion) (s : DetState)
    (hlast : s.lastImg = some last) :
    (s.subtitlePresent = false → ¬ (absdiffSum img last : ℚ) > cth →
      (procFrame cth fps idx img s).1.subtitlePresent = false ∧
      (procFrame cth fps idx img s).2 = []) ∧
    (s.subtitlePresent = false → (absdiffSum img last : ℚ) > cth →
      (procFrame cth fps idx img s).1.subtitlePresent = true ∧
      (procFrame cth fps idx img s).1.subtitleStartFrame = idx ∧
      (procFrame cth fps idx img s).2 = []) ∧
    (s.subtitlePresent = true → (absdiffSum img last : ℚ) > cth →
      (procFrame cth fps idx img s).1.subtitlePresent = true ∧
      (procFrame cth fps idx img s).1.subtitleStartFrame = s.subtitleStartFrame ∧
      (procFrame cth fps idx img s).2 = []) ∧
    ((procFrame cth fps idx img s).2 ≠ [] →
      s.subtitlePresent = true ∧ (procFrame cth fps idx img s).1.subtitlePresent = false) := by
  rcases s with ⟨li, sp, st⟩
  obtain rfl : li = some last := hlast
  by_cases hd : (absdiffSum img last : ℚ) > cth <;>
    cases sp <;>
      simp [procFrame, hd]

/-- C8 witness: the theorem instantiated at a concrete idle state and an
above-threshold diff. -/
theorem C8_alternation_witness :
    ((false = false → ¬ ((absdiffSum [[1]] [[0]] : ℕ) : ℚ) > 0 →
      (procFrame 0 25 7 [[1]] ⟨some [[0]], false, 0⟩).1.subtitlePresent = false ∧
      (procFrame 0 25 7 [[1]] ⟨some [[0]], false, 0⟩).2 = []) ∧
    (false = false → ((absdiffSum [[1]] [[0]] : ℕ) : ℚ) > 0 →
      (procFrame 0 25 7 [[1]] ⟨some [[0]], false, 0⟩).1.subtitlePresent = true ∧
      (procFrame 0 25 7 [[1]] ⟨some [[0]], false, 0⟩).1.subtitleStartFrame = 7 ∧
      (procFrame 0 25 7 [[1]] ⟨some [[0]], false, 0⟩).2 = []) ∧
    (false = true → ((absdiffSum [[1]] [[0]] : ℕ) : ℚ) > 0 →
      (procFrame 0 25 7 [[1]] ⟨some [[0]], false, 0⟩).1.subtitlePresent = true ∧
      (procFrame 0 25 7 [[1]] ⟨some [[0]], false, 0⟩).1.subtitleStartFrame = 0 ∧
      (procFrame 0 25 7 [[1]] ⟨some [[0]], false, 0⟩).2 = []) ∧
    ((procFrame 0 25 7 [[1]] ⟨some [[0]], false, 0⟩).2 ≠ [] →
      false = true ∧ (procFrame 0 25 7 [[1]] ⟨some [[0]], false, 0⟩).1.subtitlePresent = false)) :=
  C8_alternation 0 25 7 [[1]] [[0]] ⟨some [[0]], false, 0⟩ rfl

/-- C5 counterexample: the code substitutes the default frame rate only when
`fps == 0`; for the negative rate `fps = -25` no substitution happens and the
encoding of frame 25 differs from the `fps = 25` encoding, refuting the claim
for `fps ≤ 0`. -/
theorem C5_counterexample :
    (-25 : ℚ) ≤ 0 ∧ frames_to_time_str 25 (-25) ≠ frames_to_time_str 25 25 := by
  exact ⟨by norm_num, by decide⟩

/-- C5 amended: the substitution of the default frame rate 25 happens exactly
at `fps = 0`: the encoder then returns the same defined result as with
`fps = 25` (for negative fps the code performs no substitution). -/
theorem C5_amended (f : ℤ) : frames_to_time_str f 0 = frames_to_time_str f 25 := by
  unfold frames_to_time_str timeChars timeFields
  norm_num

/-- C9: with zero scene windows the driver terminates normally with the
"nothing to extract" outcome, writes zero image files, and the output
directory has still been created (if absent) and cleared of old `.png`
artifacts (if present). -/
theorem C9_zero_scenes (fs : FileSys) (r : Rectangle) (sel : Option Rectangle) (fps cth : ℚ) :
    mainDriver fs (some r) sel true fps cth [] = (wipeTempFolder fs, Outcome.nothingToExtract) ∧
    (wipeTempFolder fs).dirExists = true ∧
    (∀ f ∈ (wipeTempFolder fs).files, pyEndsWith f ".png" = false) := by
  refine ⟨by simp [mainDriver, Option.orElse], ?_, ?_⟩
  · by_cases h : fs.dirExists <;> simp [wipeTempFolder, h]
  · intro f hf
    by_cases h : fs.dirExists
    · simp only [wipeTempFolder, h, if_true] at hf
      have := (List.mem_filter.mp hf).2
      simpa using this
    · simp [wipeTempFolder, h] at hf

/-- C9 witness: the theorem instantiated at a directory holding one old
artifact and one unrelated file. -/
theorem C9_zero_scenes_witness :
    mainDriver ⟨true, ["a.png", "b.txt"]⟩ (some ⟨0, 1, 0, 1⟩) none true 25 25000 [] =
      (wipeTempFolder ⟨true, ["a.png", "b.txt"]⟩, Outcome.nothingToExtract) ∧
    (wipeTempFolder ⟨true, ["a.png", "b.txt"]⟩).dirExists = true ∧
    (∀ f ∈ (wipeTempFolder ⟨true, ["a.png", "b.txt"]⟩).files, pyEndsWith f ".png" = false) :=
  C9_zero_scenes ⟨true, ["a.png", "b.txt"]⟩ ⟨0, 1, 0, 1⟩ none 25 25000

/-- C4 counterexample: a run aborted by a configuration error (no rectangle
supplied and none selected) has already deleted a pre-existing `.png`
artifact from the output directory, refuting the claim that no previously
existing artifact files are deleted on such an aborted run. -/
theorem C4_counterexample :
    "old.png" ∈ (FileSys.mk true ["old.png"]).files ∧
    (mainDriver ⟨true, ["old.png"]⟩ none none true 25 25000 []).2 = Outcome.configError ∧
    "old.png" ∉ (mainDriver ⟨true, ["old.png"]⟩ none none true 25 25000 []).1.files := by
  refine ⟨by simp, by decide, by decide⟩

/-- C4 amended: on a configuration error (no rectangle resolves) or an
unreadable video the driver aborts before any scene processing and never
reports success, but the output directory mutation has already happened: the
resulting directory state is exactly the prepared one — created when absent
and cleared of old `.png` artifacts when present — so pre-existing artifacts
are deleted even on an aborted run. -/
theorem C4_amended (fs : FileSys) (roi sel : Option Rectangle) (videoOpen : Bool)
    (fps cth : ℚ) (scenes : List SceneInput)
    (habort : roi.orElse (fun _ => if videoOpen then sel else none) = none ∨
      videoOpen = false) :
    (mainDriver fs roi sel videoOpen fps cth scenes).1 = wipeTempFolder fs ∧
    ∀ n, (mainDriver fs roi sel videoOpen fps cth scenes).2 ≠ Outcome.success n := by
  rcases h : roi.orElse (fun _ => if videoOpen then sel else none) with _ | rect
  · simp [mainDriver, h]
  · rcases habort with habort | habort
    · rw [habort] at h
      exact absurd h (by simp)
    · subst habort
      simp only [mainDriver]
      rcases roi with _ | r <;> simp

/-- C4 amended witness: the theorem instantiated at a directory holding an
old artifact, with no rectangle supplied. -/
theorem C4_amended_witness :
    (mainDriver ⟨true, ["old.png"]⟩ none none true 25 25000 []).1 =
      wipeTempFolder ⟨true, ["old.png"]⟩ ∧
    ∀ n, (mainDriver ⟨true, ["old.png"]⟩ none none true 25 25000 []).2 ≠ Outcome.success n :=
  C4_amended ⟨true, ["old.png"]⟩ none none true 25 25000 [] (Or.inl rfl)

/-- Helper: one loop step preserves the lower bound on the recorded start
frame and only emits intervals whose start frame is above the bound. -/
theorem procFrame_start_inv (cth fps : ℚ) (idx : ℤ) (img : SubRegion) (s : DetState) (b : ℤ)
    (hidx : b < idx) (hs : s.subtitlePresent = true → b < s.subtitleStartFrame) :
    ((procFrame cth fps idx img s).1.subtitlePresent = true →
      b < (procFrame cth fps idx img s).1.subtitleStartFrame) ∧
    (∀ iv ∈ (procFrame cth fps idx img s).2, b < iv.startFrame) := by
  rcases s with ⟨li, sp, st⟩
  dsimp only at hs
  rcases li with _ | last
  · simpa [procFrame] using hs
  · by_cases hd : (absdiffSum img last : ℚ) > cth
    · cases sp
      · simp [procFrame, hd, hidx]
      · simpa [procFrame, hd] using hs
    · cases sp
      · simpa [procFrame, hd] using hs
      · simp only [procFrame, hd, if_false, if_true]
        refine ⟨by simp, ?_⟩
        intro iv hiv
        split_ifs at hiv with hcond
        · simp at hiv
          subst hiv
          exact hs rfl
        · simp at hiv

/-- Helper: the per-scene loop preserves the lower bound on the recorded
start frame and only emits intervals whose start frame is above the bound,
provided every processed frame index is above the bound. -/
theorem runFrames_start_inv (cth fps : ℚ) (b : ℤ) (pairs : List (ℤ × SubRegion)) :
    ∀ (s : DetState), (∀ p ∈ pairs, b < p.1) →
      (s.subtitlePresent = true → b < s.subtitleStartFrame) →
      ((runFrames cth fps pairs s).1.subtitlePresent = true →
        b < (runFrames cth fps pairs s).1.subtitleStartFrame) ∧
      (∀ iv ∈ (runFrames cth fps pairs s).2, b < iv.startFrame) := by
  induction pairs with
  | nil => intro s _ hs; exact ⟨hs, by simp [runFrames]⟩
  | cons p rest ih =>
    intro s hp hs
    rcases p with ⟨idx, img⟩
    have hstep := procFrame_start_inv cth fps idx img s b (hp (idx, img) (by simp)) hs
    have hrec := ih (procFrame cth fps idx img s).1
      (fun q hq => hp q (by simp [hq])) hstep.1
    refine ⟨?_, ?_⟩
    · simpa only [runFrames] using hrec.1
    · intro iv hiv
      simp only [runFrames, List.mem_append] at hiv
      rcases hiv with h | h
      · exact hstep.2 iv h
      · exact hrec.2 iv h

/-- Helper: the end-of-scene flush only emits an interval whose start frame
is the recorded one, hence above any bound the state satisfies. -/
theorem sceneFlush_start_inv (fps : ℚ) (endF : ℤ) (s : DetState) (b : ℤ)
    (hs : s.subtitlePresent = true → b < s.subtitleStartFrame) :
    ∀ iv ∈ sceneFlush fps endF s, b < iv.startFrame := by
  rcases s with ⟨li, sp, st⟩
  dsimp only at hs
  cases sp
  · simp [sceneFlush]
  · rcases li with _ | last
    · simp [sceneFlush]
    · intro iv hiv
      simp only [sceneFlush, if_true] at hiv
      split_ifs at hiv with hcond
      · simp at hiv
        subst hiv
        exact hs rfl
      · simp at hiv

/-- Helper: frame indices drawn from `range'` are bounded below. -/
theorem mem_zip_range'_le (s n : ℕ) (l : List SubRegion) :
    ∀ p ∈ ((List.range' s n).map (fun k => Int.ofNat k)).zip l, (s : ℤ) ≤ p.1 := by
  intro p hp
  have h1 := (List.of_mem_zip hp).1
  rcases List.mem_map.mp h1 with ⟨k, hk, hpk⟩
  rcases List.mem_range'.mp hk with ⟨i, hi, rfl⟩
  rw [Int.ofNat_eq_natCast] at hpk
  omega

/-- C10: no diff comparison is performed on the first decoded frame of a
scene (it only seeds the previous sub-region state), so every interval
emitted for a scene has a start frame strictly greater than the scene's
start frame. -/
theorem C10_no_first_frame_open (cth fps : ℚ) (startF endF : ℕ) (frames : List SubRegion) :
    (∀ (idx : ℤ) (img : SubRegion) (s : DetState), s.lastImg = none →
      procFrame cth fps idx img s = ({ s with lastImg := some img }, [])) ∧
    (∀ iv ∈ processScene cth fps startF endF frames, (startF : ℤ) < iv.startFrame) := by
  constructor
  · intro idx img s h
    rcases s with ⟨li, sp, st⟩
    obtain rfl : li = none := h
    rfl
  · intro iv hiv
    simp only [processScene, sceneFrameIdxs] at hiv
    rcases hn : endF - startF with _ | m
    · rw [hn] at hiv
      simp [List.range'_zero, runFrames, initState, sceneFlush] at hiv
    · rcases frames with _ | ⟨f0, rest⟩
      · simp [List.zip_nil_right, runFrames, initState, sceneFlush] at hiv
      · rw [hn, List.range'_succ] at hiv
        simp only [List.map_cons, List.zip_cons_cons, runFrames] at hiv
        have hseed : procFrame cth fps (Int.ofNat startF) f0 initState =
            ({ initState with lastImg := some f0 }, []) := rfl
        rw [hseed] at hiv
        have hbound : ∀ p ∈ ((List.range' (startF + 1) m).map
            (fun k => Int.ofNat k)).zip rest, (startF : ℤ) < p.1 := by
          intro p hp
          have := mem_zip_range'_le (startF + 1) m rest p hp
          push_cast at this ⊢
          omega
        have hinv := runFrames_start_inv cth fps (startF : ℤ)
          (((List.range' (startF + 1) m).map (fun k => Int.ofNat k)).zip rest)
          ({ initState with lastImg := some f0 }) hbound (by simp [initState])
        simp only [List.nil_append, List.mem_append] at hiv
        rcases hiv with h | h
        · exact hinv.2 iv h
        · exact sceneFlush_start_inv fps endF _ (startF : ℤ) hinv.1 iv h

/-- C10 witness: the theorem instantiated at a seeding step and the Scenario
A stream. -/
theorem C10_no_first_frame_open_witness :
    procFrame 0 25 3 [[1]] ⟨none, false, 0⟩ = (⟨some [[1]], false, 0⟩, []) ∧
    ∀ iv ∈ processScene 0 25 0 50 scenAFrames, (0 : ℤ) < iv.startFrame := by
  have h := C10_no_first_frame_open 0 25 0 50 scenAFrames
  exact ⟨h.1 3 [[1]] ⟨none, false, 0⟩ rfl, by simpa using h.2⟩

/-- Helper: `charVal` inverts `Nat.digitChar` on decimal digits. -/
theorem charVal_digitChar : ∀ d, d < 10 → charVal (Nat.digitChar d) = d := by decide

/-- Helper: decimal digit characters are not underscores. -/
theorem digitChar_ne_underscore : ∀ d, d < 10 → Nat.digitChar d ≠ '_' := by decide

/-- Helper: decimal digit characters are not dots. -/
theorem digitChar_ne_dot : ∀ d, d < 10 → Nat.digitChar d ≠ '.' := by decide

/-- Helper: decimal digit characters satisfy `Char.isDigit`. -/
theorem digitChar_isDigit : ∀ d, d < 10 → (Nat.digitChar d).isDigit = true := by decide

/-- Helper: character order agrees with digit order on decimal digits. -/
theorem digitChar_lt_iff : ∀ d1, d1 < 10 → ∀ d2, d2 < 10 →
    ((Nat.digitChar d1 < Nat.digitChar d2) ↔ d1 < d2) := by decide

/-- Helper: the fuel-based digit list agrees with `Nat.digits 10`. -/
theorem natDigitsAux_eq_digits (fuel : ℕ) :
    ∀ m : ℕ, m ≤ fuel → natDigitsAux fuel m = Nat.digits 10 m := by
  induction fuel with
  | zero =>
    intro m hm
    obtain rfl : m = 0 := Nat.le_zero.mp hm
    simp [natDigitsAux]
  | succ fuel ih =>
    intro m hm
    match m with
    | 0 => simp [natDigitsAux]
    | k + 1 =>
      rw [Nat.digits_def' (by norm_num) (Nat.succ_pos k)]
      simp only [natDigitsAux]
      rw [ih ((k + 1) / 10) ?_]
      have := Nat.div_lt_self (Nat.succ_pos k) (show 1 < 10 by norm_num)
      omega

/-- Helper: `natDigitsLE` is `Nat.digits 10`. -/
theorem natDigitsLE_eq_digits (n : ℕ) : natDigitsLE n = Nat.digits 10 n :=
  natDigitsAux_eq_digits n n le_rfl

/-- Helper: every character of `natDigitChars` is a digit character. -/
theorem mem_natDigitChars (n : ℕ) :
    ∀ c ∈ natDigitChars n, ∃ d, d < 10 ∧ c = Nat.digitChar d := by
  intro c hc
  simp only [natDigitChars, natDigitsLE_eq_digits, List.mem_map, List.mem_reverse] at hc
  obtain ⟨d, hd, rfl⟩ := hc
  exact ⟨d, Nat.digits_lt_base (by norm_num) hd, rfl⟩

/-- Helper: every character of `padNat` is a digit character. -/
theorem mem_padNat (w n : ℕ) :
    ∀ c ∈ padNat w n, ∃ d, d < 10 ∧ c = Nat.digitChar d := by
  intro c hc
  rcases List.mem_append.mp hc with h | h
  · obtain rfl := List.eq_of_mem_replicate h
    exact ⟨0, by norm_num, rfl⟩
  · exact mem_natDigitChars n c h

/-- Helper: a padded block is a nonempty digit block when the width is
positive. -/
theorem padNat_digitBlock (w n : ℕ) (hw : 1 ≤ w) : DigitBlock (padNat w n) := by
  refine ⟨?_, mem_padNat w n⟩
  have hlen : (padNat w n).length = (w - (natDigitChars n).length) + (natDigitChars n).length := by
    simp [padNat]
  intro hnil
  rw [hnil] at hlen
  simp at hlen
  omega

/-- Helper: the digit character list of `n < 10 ^ w` has length at most `w`. -/
theorem natDigitChars_length_le (w n : ℕ) (h : n < 10 ^ w) :
    (natDigitChars n).length ≤ w := by
  simp only [natDigitChars, natDigitsLE_eq_digits, List.length_map, List.length_reverse]
  rcases Nat.eq_zero_or_pos n with rfl | hn
  · simp
  · rw [Nat.digits_len 10 n (by norm_num) (Nat.pos_iff_ne_zero.mp hn)]
    have := Nat.log_lt_of_lt_pow (Nat.pos_iff_ne_zero.mp hn) h
    omega

/-- Helper: the padded block of `n < 10 ^ w` has length exactly `w`. -/
theorem padNat_length (w n : ℕ) (h : n < 10 ^ w) : (padNat w n).length = w := by
  have := natDigitChars_length_le w n h
  simp only [padNat, List.length_append, List.length_replicate]
  omega

/-- Helper: reading a padded block back yields the padded number. -/
theorem blockVal_padNat (w n : ℕ) : blockVal (padNat w n) = n := by
  have hmap : (natDigitChars n).map charVal = (Nat.digits 10 n).reverse := by
    simp only [natDigitChars, natDigitsLE_eq_digits, List.map_map]
    have : ∀ L : List ℕ, (∀ d ∈ L, d < 10) →
        L.map (fun d => charVal (Nat.digitChar d)) = L := by
      intro L
      induction L with
      | nil => intro _; rfl
      | cons d L ih =>
        intro hL
        have hd : d < 10 := hL d (by simp)
        have hv : charVal (Nat.digitChar d) = d := charVal_digitChar d hd
        simp only [List.map_cons, hv, ih (fun x hx => hL x (by simp [hx]))]
    exact this _ (fun d hd => Nat.digits_lt_base (by norm_num) (List.mem_reverse.mp hd))
  simp only [blockVal, padNat, List.map_append, List.map_replicate, hmap,
    List.reverse_append, List.reverse_reverse, List.reverse_replicate]
  have hzero : charVal '0' = 0 := rfl
  rw [hzero, Nat.ofDigits_append]
  have hrep : ∀ k : ℕ, Nat.ofDigits 10 (List.replicate k 0) = 0 := by
    intro k
    induction k with
    | zero => rfl
    | succ k ih => simp [List.replicate, Nat.ofDigits_cons, ih]
  rw [hrep, Nat.ofDigits_digits]
  ring

/-- Helper: `blockVal` of a cons. -/
theorem blockVal_cons (c : Char) (t : List Char) :
    blockVal (c :: t) = blockVal t + 10 ^ t.length * charVal c := by
  simp [blockVal, Nat.ofDigits_append, Nat.ofDigits_singleton]

/-- Helper: the value of a digit block is below `10 ^ length`. -/
theorem blockVal_lt (L : List Char) (hL : ∀ c ∈ L, ∃ d, d < 10 ∧ c = Nat.digitChar d) :
    blockVal L < 10 ^ L.length := by
  have h : Nat.ofDigits 10 ((L.map charVal).reverse) <
      10 ^ ((L.map charVal).reverse).length := by
    apply Nat.ofDigits_lt_base_pow_length (by norm_num)
    intro x hx
    rcases List.mem_map.mp (List.mem_reverse.mp hx) with ⟨c, hc, rfl⟩
    obtain ⟨d, hd, rfl⟩ := hL c hc
    rw [charVal_digitChar d hd]
    exact hd
  simpa [blockVal] using h

/-- Helper: lexicographic order on equal-length digit blocks implies numeric
order of their values. -/
theorem blockVal_lt_of_lex (L1 : List Char) :
    ∀ L2 : List Char, L1.length = L2.length →
      (∀ c ∈ L1, ∃ d, d < 10 ∧ c = Nat.digitChar d) →
      (∀ c ∈ L2, ∃ d, d < 10 ∧ c = Nat.digitChar d) →
      List.lt L1 L2 → blockVal L1 < blockVal L2 := by
  induction L1 with
  | nil =>
    intro L2 hlen _ _ hlt
    cases hlt with
    | nil b bs => simp at hlen
  | cons c1 t1 ih =>
    intro L2 hlen h1 h2 hlt
    cases hlt with
    | head as bs hc =>
      rename_i c2
      obtain ⟨d1, hd1, rfl⟩ := h1 c1 (by simp)
      obtain ⟨d2, hd2, rfl⟩ := h2 c2 (by simp)
      have hd12 : d1 < d2 := (digitChar_lt_iff d1 hd1 d2 hd2).mp hc
      have hlen' : t1.length = bs.length := by simpa using hlen
      have hb1 : blockVal t1 < 10 ^ t1.length :=
        blockVal_lt t1 (fun c hc' => h1 c (by simp [hc']))
      rw [blockVal_cons, blockVal_cons, charVal_digitChar d1 hd1, charVal_digitChar d2 hd2]
      calc blockVal t1 + 10 ^ t1.length * d1
          < 10 ^ t1.length + 10 ^ t1.length * d1 := by omega
        _ = 10 ^ t1.length * (d1 + 1) := by ring
        _ ≤ 10 ^ t1.length * d2 := Nat.mul_le_mul_left _ (by omega)
        _ ≤ blockVal bs + 10 ^ bs.length * d2 := by rw [← hlen']; omega
    | tail hnc1 hnc2 htl =>
      rename_i c2 bs
      obtain ⟨d1, hd1, rfl⟩ := h1 c1 (by simp)
      obtain ⟨d2, hd2, rfl⟩ := h2 c2 (by simp)
      have hdeq : d1 = d2 := by
        have hd12 : ¬ d1 < d2 := fun hlt' => hnc1 ((digitChar_lt_iff d1 hd1 d2 hd2).mpr hlt')
        have hd21 : ¬ d2 < d1 := fun hlt' => hnc2 ((digitChar_lt_iff d2 hd2 d1 hd1).mpr hlt')
        omega
      subst hdeq
      have hlen' : t1.length = bs.length := by simpa using hlen
      have hrec : blockVal t1 < blockVal bs :=
        ih bs hlen' (fun c hc' => h1 c (by simp [hc'])) (fun c hc' => h2 c (by simp [hc'])) htl
      rw [blockVal_cons, blockVal_cons, hlen']
      omega

/-- Helper: a lexicographic comparison of equal-length-prefixed
concatenations decomposes into a comparison of the prefixes or of the
suffixes. -/
theorem lt_append_decomp (a : List Char) :
    ∀ (b c d : List Char), a.length = b.length →
      List.lt (a ++ c) (b ++ d) → List.lt a b ∨ (a = b ∧ List.lt c d) := by
  induction a with
  | nil =>
    intro b c d hlen h
    obtain rfl : b = [] := by
      cases b
      · rfl
      · simp at hlen
    exact Or.inr ⟨rfl, by simpa using h⟩
  | cons x a' ih =>
    intro b c d hlen h
    rcases b with _ | ⟨y, b'⟩
    · simp at hlen
    · cases h with
      | head as bs hxy => exact Or.inl (List.lt.head _ _ hxy)
      | tail hxy hyx htl =>
        rcases ih b' c d (by simpa using hlen) htl with h' | ⟨heq, hcd⟩
        · exact Or.inl (List.lt.tail hxy hyx h')
        · have hx : x = y := le_antisymm (not_lt.mp hyx) (not_lt.mp hxy)
          exact Or.inr ⟨by rw [hx, heq], hcd⟩

/-- Helper: a list of length 2 is a two-element list. -/
theorem exists_pair_of_length_two (L : List Char) (h : L.length = 2) :
    ∃ a b, L = [a, b] := by
  rcases L with _ | ⟨a, _ | ⟨b, _ | ⟨c, t⟩⟩⟩ <;> simp at h
  exact ⟨a, b, rfl⟩

/-- Helper: a list of length 3 is a three-element list. -/
theorem exists_triple_of_length_three (L : List Char) (h : L.length = 3) :
    ∃ a b c, L = [a, b, c] := by
  rcases L with _ | ⟨a, _ | ⟨b, _ | ⟨c, _ | ⟨d, t⟩⟩⟩⟩ <;> simp at h
  exact ⟨a, b, c, rfl⟩

/-- Helper: a timestamp built from lexicographically-ordered field values is
not strictly above the one built from the larger fields (fixed widths need
hours below 100). -/
theorem timestamp_not_lt (h1 m1 s1 ms1 h2 m2 s2 ms2 : ℕ)
    (hh1 : h1 < 100) (hh2 : h2 < 100) (hm1 : m1 < 100) (hm2 : m2 < 100)
    (hs1 : s1 < 100) (hs2 : s2 < 100) (hms1 : ms1 < 1000) (hms2 : ms2 < 1000)
    (hle : h1 < h2 ∨ (h1 = h2 ∧ (m1 < m2 ∨ (m1 = m2 ∧ (s1 < s2 ∨ (s1 = s2 ∧ ms1 ≤ ms2)))))) :
    ¬ List.lt
      (padNat 2 h2 ++ '_' :: (padNat 2 m2 ++ '_' :: (padNat 2 s2 ++ '_' :: padNat 3 ms2)))
      (padNat 2 h1 ++ '_' :: (padNat 2 m1 ++ '_' :: (padNat 2 s1 ++ '_' :: padNat 3 ms1))) := by
  intro hlt
  have e100 : (100 : ℕ) = 10 ^ 2 := by norm_num
  have e1000 : (1000 : ℕ) = 10 ^ 3 := by norm_num
  have lenh : (padNat 2 h2).length = (padNat 2 h1).length := by
    rw [padNat_length 2 h2 (e100 ▸ hh2), padNat_length 2 h1 (e100 ▸ hh1)]
  rcases lt_append_decomp _ _ _ _ lenh hlt with hb | ⟨heq, hrest⟩
  · have := blockVal_lt_of_lex _ _ lenh (mem_padNat 2 h2) (mem_padNat 2 h1) hb
    rw [blockVal_padNat, blockVal_padNat] at this
    omega
  · have hveq : h2 = h1 := by
      have := congrArg blockVal heq
      rwa [blockVal_padNat, blockVal_padNat] at this
    cases hrest with
    | head as bs hc => exact absurd hc (lt_irrefl _)
    | tail hnc1 hnc2 htl =>
      have lenm : (padNat 2 m2).length = (padNat 2 m1).length := by
        rw [padNat_length 2 m2 (e100 ▸ hm2), padNat_length 2 m1 (e100 ▸ hm1)]
      rcases lt_append_decomp _ _ _ _ lenm htl with hb | ⟨heqm, hrestm⟩
      · have := blockVal_lt_of_lex _ _ lenm (mem_padNat 2 m2) (mem_padNat 2 m1) hb
        rw [blockVal_padNat, blockVal_padNat] at this
        omega
      · have hveqm : m2 = m1 := by
          have := congrArg blockVal heqm
          rwa [blockVal_padNat, blockVal_padNat] at this
        cases hrestm with
        | head as bs hc => exact absurd hc (lt_irrefl _)
        | tail hnc1' hnc2' htl' =>
          have lens : (padNat 2 s2).length = (padNat 2 s1).length := by
            rw [padNat_length 2 s2 (e100 ▸ hs2), padNat_length 2 s1 (e100 ▸ hs1)]
          rcases lt_append_decomp _ _ _ _ lens htl' with hb | ⟨heqs, hrests⟩
          · have := blockVal_lt_of_lex _ _ lens (mem_padNat 2 s2) (mem_padNat 2 s1) hb
            rw [blockVal_padNat, blockVal_padNat] at this
            omega
          · have hveqs : s2 = s1 := by
              have := congrArg blockVal heqs
              rwa [blockVal_padNat, blockVal_padNat] at this
            cases hrests with
            | head as bs hc => exact absurd hc (lt_irrefl _)
            | tail hnc1s hnc2s htls =>
              have lenms : (padNat 3 ms2).length = (padNat 3 ms1).length := by
                rw [padNat_length 3 ms2 (e1000 ▸ hms2), padNat_length 3 ms1 (e1000 ▸ hms1)]
              have := blockVal_lt_of_lex _ _ lenms (mem_padNat 3 ms2) (mem_padNat 3 ms1) htls
              rw [blockVal_padNat, blockVal_padNat] at this
              omega

/-- Helper: bounds, value identity and hour-overflow characterization for the
codec's fields on nonnegative input. -/
theorem timeFields_spec (f : ℤ) (fps : ℚ) (hf : 0 ≤ f) (hfps : 0 ≤ fps) :
    0 ≤ (timeFields f fps).hours ∧
    0 ≤ (timeFields f fps).minutes ∧ (timeFields f fps).minutes < 60 ∧
    0 ≤ (timeFields f fps).seconds ∧ (timeFields f fps).seconds < 60 ∧
    0 ≤ (timeFields f fps).ms ∧ (timeFields f fps).ms < 1000 ∧
    ((timeFields f fps).hours * 3600 + (timeFields f fps).minutes * 60 +
        (timeFields f fps).seconds) * 1000 + (timeFields f fps).ms =
      ⌊(f : ℚ) / (if fps = 0 then 25 else fps) * 1000⌋ ∧
    ((timeFields f fps).hours < 100 ↔ (f : ℚ) / (if fps = 0 then 25 else fps) < 360000) := by
  have hfpspos : 0 < (if fps = 0 then 25 else fps) := by
    split_ifs with h
    · norm_num
    · exact lt_of_le_of_ne hfps (Ne.symm h)
  set fps' : ℚ := if fps = 0 then 25 else fps with hfpsdef
  set sec : ℚ := (f : ℚ) / fps' with hsecdef
  have hsec0 : 0 ≤ sec := div_nonneg (by exact_mod_cast hf) hfpspos.le
  have hwhole : ratTrunc sec = ⌊sec⌋ := by simp [ratTrunc, hsec0]
  have hker : timeFields f fps =
      ⟨⌊sec⌋ / 3600, ⌊sec⌋ % 3600 / 60, ⌊sec⌋ % 3600 % 60,
       ratTrunc ((sec - (⌊sec⌋ : ℚ)) * 1000)⟩ := by
    simp only [timeFields]
    rw [← hfpsdef, ← hsecdef, hwhole]
  rw [hker]
  have hw0 : 0 ≤ ⌊sec⌋ := Int.floor_nonneg.mpr hsec0
  have hfloor_le : (⌊sec⌋ : ℚ) ≤ sec := Int.floor_le sec
  have hlt1 : sec < ⌊sec⌋ + 1 := Int.lt_floor_add_one sec
  have hms_eq : ratTrunc ((sec - (⌊sec⌋ : ℚ)) * 1000) = ⌊sec * 1000⌋ - ⌊sec⌋ * 1000 := by
    have hnn : 0 ≤ (sec - (⌊sec⌋ : ℚ)) * 1000 := by
      apply mul_nonneg _ (by norm_num)
      linarith
    have h2 : (sec - (⌊sec⌋ : ℚ)) * 1000 = sec * 1000 - ((⌊sec⌋ * 1000 : ℤ) : ℚ) := by
      push_cast
      ring
    simp only [ratTrunc, if_pos hnn]
    rw [h2, Int.floor_sub_int]
  rw [hms_eq]
  dsimp only
  have hms0 : ⌊sec⌋ * 1000 ≤ ⌊sec * 1000⌋ := by
    rw [Int.le_floor]
    push_cast
    exact mul_le_mul_of_nonneg_right hfloor_le (by norm_num)
  have hms1 : ⌊sec * 1000⌋ < ⌊sec⌋ * 1000 + 1000 := by
    rw [Int.floor_lt]
    push_cast
    nlinarith [hlt1]
  have hiff : ⌊sec⌋ / 3600 < 100 ↔ sec < 360000 := by
    have hfl : ⌊sec⌋ < 360000 ↔ sec < ((360000 : ℤ) : ℚ) := Int.floor_lt
    constructor
    · intro h
      have : ⌊sec⌋ < 360000 := by omega
      have := hfl.mp this
      norm_num at this
      exact this
    · intro h
      have : ⌊sec⌋ < 360000 := hfl.mpr (by norm_num; exact h)
      omega
  exact ⟨by omega, by omega, by omega, by omega, by omega, by omega, by omega, by omega, hiff⟩

/-- Helper: a string assembled from four digit blocks of widths 2, 2, 2, 3
matches the timestamp pattern. -/
theorem matchesPattern_of_blocks (H M S MS : List Char)
    (hH : H.length = 2) (hM : M.length = 2) (hS : S.length = 2) (hMS : MS.length = 3)
    (dH : ∀ c ∈ H, ∃ d, d < 10 ∧ c = Nat.digitChar d)
    (dM : ∀ c ∈ M, ∃ d, d < 10 ∧ c = Nat.digitChar d)
    (dS : ∀ c ∈ S, ∃ d, d < 10 ∧ c = Nat.digitChar d)
    (dMS : ∀ c ∈ MS, ∃ d, d < 10 ∧ c = Nat.digitChar d) :
    matchesPattern (String.mk (H ++ '_' :: M ++ '_' :: S ++ '_' :: MS)) = true := by
  obtain ⟨a1, a2, rfl⟩ := exists_pair_of_length_two H hH
  obtain ⟨b1, b2, rfl⟩ := exists_pair_of_length_two M hM
  obtain ⟨c1, c2, rfl⟩ := exists_pair_of_length_two S hS
  obtain ⟨e1, e2, e3, rfl⟩ := exists_triple_of_length_three MS hMS
  obtain ⟨d1, hd1, rfl⟩ := dH a1 (by simp)
  obtain ⟨d2, hd2, rfl⟩ := dH a2 (by simp)
  obtain ⟨d3, hd3, rfl⟩ := dM b1 (by simp)
  obtain ⟨d4, hd4, rfl⟩ := dM b2 (by simp)
  obtain ⟨d5, hd5, rfl⟩ := dS c1 (by simp)
  obtain ⟨d6, hd6, rfl⟩ := dS c2 (by simp)
  obtain ⟨d7, hd7, rfl⟩ := dMS e1 (by simp)
  obtain ⟨d8, hd8, rfl⟩ := dMS e2 (by simp)
  obtain ⟨d9, hd9, rfl⟩ := dMS e3 (by simp)
  simp [matchesPattern, digitChar_isDigit d1 hd1, digitChar_isDigit d2 hd2,
    digitChar_isDigit d3 hd3, digitChar_isDigit d4 hd4, digitChar_isDigit d5 hd5,
    digitChar_isDigit d6 hd6, digitChar_isDigit d7 hd7, digitChar_isDigit d8 hd8,
    digitChar_isDigit d9 hd9]

/-- Helper: on nonnegative input the four fields render as `padNat` blocks. -/
theorem timeChars_eq_padNat (f : ℤ) (fps : ℚ) (hf : 0 ≤ f) (hfps : 0 ≤ fps) :
    timeChars f fps =
      padNat 2 (timeFields f fps).hours.toNat ++ '_' ::
        padNat 2 (timeFields f fps).minutes.toNat ++ '_' ::
        padNat 2 (timeFields f fps).seconds.toNat ++ '_' ::
        padNat 3 (timeFields f fps).ms.toNat := by
  obtain ⟨hh, hm0, _, hs0, _, hms0, _, _, _⟩ := timeFields_spec f fps hf hfps
  simp only [timeChars, padInt, if_neg (not_lt.mpr hh), if_neg (not_lt.mpr hm0),
    if_neg (not_lt.mpr hs0), if_neg (not_lt.mpr hms0)]

/-- C6 counterexample: at `fps = 1 > 0` and frame index `360000 ≥ 0` the
elapsed time reaches 100 hours, the hour field takes three digits, and the
encoded string no longer matches the fixed pattern
`\d{2}_\d{2}_\d{2}_\d{3}`, refuting the claim for all `fps > 0`, `f ≥ 0`. -/
theorem C6_counterexample :
    (0 : ℚ) < 1 ∧ (0 : ℤ) ≤ 360000 ∧
    matchesPattern (frames_to_time_str 360000 1) = false := by
  exact ⟨by norm_num, by norm_num, by decide⟩

/-- C6 amended: for all `fps > 0` and `0 ≤ f1 ≤ f2` whose elapsed time stays
below 100 hours (`f < 360000 * fps`), the encoding matches the fixed pattern
`\d{2}_\d{2}_\d{2}_\d{3}` and is monotonically non-decreasing in the frame
index (in lexicographic string order); beyond 100 hours the hour field
overflows its two-digit width. -/
theorem C6_amended (f1 f2 : ℤ) (fps : ℚ) (hfps : 0 < fps) (hf1 : 0 ≤ f1) (h12 : f1 ≤ f2)
    (hbound : (f2 : ℚ) < 360000 * fps) :
    matchesPattern (frames_to_time_str f1 fps) = true ∧
    matchesPattern (frames_to_time_str f2 fps) = true ∧
    frames_to_time_str f1 fps ≤ frames_to_time_str f2 fps := by
  have hf2 : 0 ≤ f2 := le_trans hf1 h12
  have hfpsne : fps ≠ 0 := ne_of_gt hfps
  have hite : (if fps = 0 then (25 : ℚ) else fps) = fps := if_neg hfpsne
  obtain ⟨hh10, hm10, hm11, hs10, hs11, hms10, hms11, hv1, hiff1⟩ :=
    timeFields_spec f1 fps hf1 hfps.le
  obtain ⟨hh20, hm20, hm21, hs20, hs21, hms20, hms21, hv2, hiff2⟩ :=
    timeFields_spec f2 fps hf2 hfps.le
  rw [hite] at hv1 hiff1 hv2 hiff2
  have hsec2 : (f2 : ℚ) / fps < 360000 := (div_lt_iff hfps).mpr (by linarith)
  have hsecle : (f1 : ℚ) / fps ≤ (f2 : ℚ) / fps :=
    (div_le_div_right hfps).mpr (by exact_mod_cast h12)
  have hsec1 : (f1 : ℚ) / fps < 360000 := lt_of_le_of_lt hsecle hsec2
  have hhour1 : (timeFields f1 fps).hours < 100 := hiff1.mpr hsec1
  have hhour2 : (timeFields f2 fps).hours < 100 := hiff2.mpr hsec2
  have hvle : ⌊(f1 : ℚ) / fps * 1000⌋ ≤ ⌊(f2 : ℚ) / fps * 1000⌋ :=
    Int.floor_le_floor (mul_le_mul_of_nonneg_right hsecle (by norm_num))
  have hlen1 : (timeFields f1 fps).hours.toNat < 10 ^ 2 := by norm_num; omega
  have hlen2 : (timeFields f2 fps).hours.toNat < 10 ^ 2 := by norm_num; omega
  refine ⟨?_, ?_, ?_⟩
  · rw [frames_to_time_str, timeChars_eq_padNat f1 fps hf1 hfps.le]
    exact matchesPattern_of_blocks _ _ _ _
      (padNat_length 2 _ hlen1) (padNat_length 2 _ (by norm_num; omega))
      (padNat_length 2 _ (by norm_num; omega)) (padNat_length 3 _ (by norm_num; omega))
      (mem_padNat 2 _) (mem_padNat 2 _) (mem_padNat 2 _) (mem_padNat 3 _)
  · rw [frames_to_time_str, timeChars_eq_padNat f2 fps hf2 hfps.le]
    exact matchesPattern_of_blocks _ _ _ _
      (padNat_length 2 _ hlen2) (padNat_length 2 _ (by norm_num; omega))
      (padNat_length 2 _ (by norm_num; omega)) (padNat_length 3 _ (by norm_num; omega))
      (mem_padNat 2 _) (mem_padNat 2 _) (mem_padNat 2 _) (mem_padNat 3 _)
  · rw [String.le_iff_toList_le]
    refine not_lt.mp ?_
    intro hlex
    have hlt : List.lt (timeChars f2 fps) (timeChars f1 fps) :=
      (List.lt_iff_lex_lt _ _).mpr hlex
    rw [timeChars_eq_padNat f2 fps hf2 hfps.le, timeChars_eq_padNat f1 fps hf1 hfps.le] at hlt
    simp only [List.append_assoc, List.cons_append] at hlt
    have hlex : (timeFields f1 fps).hours.toNat < (timeFields f2 fps).hours.toNat ∨
        ((timeFields f1 fps).hours.toNat = (timeFields f2 fps).hours.toNat ∧
          ((timeFields f1 fps).minutes.toNat < (timeFields f2 fps).minutes.toNat ∨
            ((timeFields f1 fps).minutes.toNat = (timeFields f2 fps).minutes.toNat ∧
              ((timeFields f1 fps).seconds.toNat < (timeFields f2 fps).seconds.toNat ∨
                ((timeFields f1 fps).seconds.toNat = (timeFields f2 fps).seconds.toNat ∧
                  (timeFields f1 fps).ms.toNat ≤ (timeFields f2 fps).ms.toNat))))) := by
      omega
    exact timestamp_not_lt _ _ _ _ _ _ _ _
      (by omega) (by omega) (by omega) (by omega) (by omega) (by omega) (by omega) (by omega)
      hlex hlt

/-- C6 amended witness: the theorem instantiated at frames 0 and 1 at 25
fps. -/
theorem C6_amended_witness :
    matchesPattern (frames_to_time_str 0 25) = true ∧
    matchesPattern (frames_to_time_str 1 25) = true ∧
    frames_to_time_str 0 25 ≤ frames_to_time_str 1 25 :=
  C6_amended 0 1 25 (by norm_num) (by norm_num) (by norm_num) (by norm_num)

/-- Helper: splitting on a single separator character absent from the list
returns the list whole. -/
theorem pySplit_single_nosep (c0 : Char) (A : List Char) (hA : c0 ∉ A) :
    pySplit c0 [] A = [A] := by
  induction A with
  | nil => simp [pySplit]
  | cons x A' ih =>
    have hx : ¬ c0 = x := fun h => hA (by simp [h])
    have hA' : c0 ∉ A' := fun h => hA (by simp [h])
    rw [pySplit]
    simp only [List.isPrefixOf, List.drop_zero]
    rw [if_neg (by simp [hx]), ih hA']

/-- Helper: splitting on a single separator character cuts at its first
occurrence. -/
theorem pySplit_single_cut (c0 : Char) (A B : List Char) (hA : c0 ∉ A) :
    pySplit c0 [] (A ++ c0 :: B) = A :: pySplit c0 [] B := by
  induction A with
  | nil =>
    rw [List.nil_append, pySplit]
    simp [List.isPrefixOf]
  | cons x A' ih =>
    have hx : ¬ c0 = x := fun h => hA (by simp [h])
    have hA' : c0 ∉ A' := fun h => hA (by simp [h])
    rw [List.cons_append, pySplit]
    simp only [List.isPrefixOf, List.drop_zero]
    rw [if_neg (by simp [hx]), ih hA']

/-- Helper: a duplicated separator is not a prefix when the first two
characters are not both the separator. -/
theorem isPrefixOf_pair_eq_false (c0 x y : Char) (L : List Char) (h : ¬ (x = c0 ∧ y = c0)) :
    ([c0, c0].isPrefixOf (x :: y :: L)) = false := by
  simp only [List.isPrefixOf, Bool.and_true]
  by_cases hx : x = c0
  · have hy : ¬ y = c0 := fun hy => h ⟨hx, hy⟩
    simp [hx, hy]
    intro h'
    exact absurd h'.symm hy
  · simp [hx]
    intro h'
    exact absurd h'.symm hx

/-- Helper: splitting on a duplicated separator character leaves a
separator-safe list whole. -/
theorem pySplit_double_nosep (c0 : Char) (A : List Char) (hA : sepSafe c0 A = true) :
    pySplit c0 [c0] A = [A] := by
  induction A with
  | nil => simp [pySplit]
  | cons x A' ih =>
    rw [pySplit]
    rcases A' with _ | ⟨y, A''⟩
    · simp [pySplit, List.isPrefixOf]
    · have hsplit : (!(x == c0 && y == c0) && sepSafe c0 (y :: A'')) = true := hA
      rw [Bool.and_eq_true, Bool.not_eq_true'] at hsplit
      obtain ⟨hxy, hA'⟩ := hsplit
      have hnand : ¬ (x = c0 ∧ y = c0) := by
        intro hcon
        rw [hcon.1, hcon.2] at hxy
        simp at hxy
      rw [if_neg (by rw [isPrefixOf_pair_eq_false c0 x y A'' hnand]; simp), ih hA']

/-- Helper: splitting on a duplicated separator cuts a separator-safe prefix
at the first separator occurrence. -/
theorem pySplit_double_cut (c0 : Char) (A B : List Char) (hA : sepSafe c0 A = true) :
    pySplit c0 [c0] (A ++ c0 :: c0 :: B) = A :: pySplit c0 [c0] B := by
  induction A with
  | nil =>
    rw [List.nil_append, pySplit]
    simp [List.isPrefixOf]
  | cons x A' ih =>
    rw [List.cons_append, pySplit]
    rcases A' with _ | ⟨y, A''⟩
    · have hx : ¬ x = c0 := by
        have hxb : (x != c0) = true := hA
        simpa using hxb
      rw [if_neg (by
          simp only [List.nil_append]
          rw [isPrefixOf_pair_eq_false c0 x c0 (c0 :: B) (fun hc => hx hc.1)]
          simp)]
      simp only [List.nil_append]
      rw [pySplit]
      simp [List.isPrefixOf]
    · have hsplit : (!(x == c0 && y == c0) && sepSafe c0 (y :: A'')) = true := hA
      rw [Bool.and_eq_true, Bool.not_eq_true'] at hsplit
      obtain ⟨hxy, hA'⟩ := hsplit
      have hnand : ¬ (x = c0 ∧ y = c0) := by
        intro hcon
        rw [hcon.1, hcon.2] at hxy
        simp at hxy
      rw [if_neg (by
          rw [List.cons_append, isPrefixOf_pair_eq_false c0 x y (A'' ++ c0 :: c0 :: B) hnand]
          simp),
        ih hA']

/-- Helper: a list avoiding the separator, followed by a separator-safe
tail, is separator-safe. -/
theorem sepSafe_append (c0 : Char) (B : List Char) :
    ∀ T : List Char, (∀ c ∈ B, c ≠ c0) → sepSafe c0 T = true → sepSafe c0 (B ++ T) = true := by
  induction B with
  | nil =>
    intro T _ hT
    simpa using hT
  | cons x B' ih =>
    intro T hB hT
    have hx : x ≠ c0 := hB x (by simp)
    have hrest := ih T (fun c hc => hB c (by simp [hc])) hT
    rw [List.cons_append]
    rcases hBT : B' ++ T with _ | ⟨y, R⟩
    · simp [sepSafe, hx]
    · rw [hBT] at hrest
      show (!(x == c0 && y == c0) && sepSafe c0 (y :: R)) = true
      simp [hrest, hx]

/-- Helper: every separator-free list is separator-safe. -/
theorem sepSafe_of_all_ne (c0 : Char) (B : List Char) (hB : ∀ c ∈ B, c ≠ c0) :
    sepSafe c0 B = true := by
  have h := sepSafe_append c0 B [] hB rfl
  simpa using h

/-- Helper: prepending one separator to a separator-safe list with a
non-separator head stays separator-safe. -/
theorem sepSafe_cons_sep (c0 y : Char) (R : List Char) (hy : y ≠ c0)
    (hR : sepSafe c0 (y :: R) = true) : sepSafe c0 (c0 :: y :: R) = true := by
  show (!(c0 == c0 && y == c0) && sepSafe c0 (y :: R)) = true
  simp [hR, hy]

/-- Helper: prepending one separator in front of a nonempty separator-free
block (followed by anything separator-safe) stays separator-safe. -/
theorem sepSafe_sep_append (c0 : Char) (P Z : List Char) (hPne : ∀ c ∈ P, c ≠ c0)
    (hP : P ≠ []) (hPZ : sepSafe c0 (P ++ Z) = true) :
    sepSafe c0 (c0 :: (P ++ Z)) = true := by
  rcases P with _ | ⟨y, R⟩
  · exact absurd rfl hP
  · rw [List.cons_append] at hPZ ⊢
    exact sepSafe_cons_sep c0 y (R ++ Z) (hPne y (by simp)) hPZ

/-- Helper: prepending one separator to a nonempty separator-free safe block
stays separator-safe. -/
theorem sepSafe_sep_cons_block (c0 : Char) (P : List Char) (hPne : ∀ c ∈ P, c ≠ c0)
    (hP : P ≠ []) (hS : sepSafe c0 P = true) : sepSafe c0 (c0 :: P) = true := by
  rcases P with _ | ⟨y, R⟩
  · exact absurd rfl hP
  · exact sepSafe_cons_sep c0 y R (hPne y (by simp)) hS

/-- Helper: substituting the separator leaves a separator-free list
unchanged. -/
theorem map_subst_of_no_sep (L : List Char) (hL : ∀ c ∈ L, c ≠ '_') :
    L.map (fun c => if c = '_' then ':' else c) = L := by
  induction L with
  | nil => rfl
  | cons x L' ih =>
    have hx : x ≠ '_' := hL x (by simp)
    simp [hx, ih (fun c hc => hL c (by simp [hc]))]

/-- Helper: padded digit blocks contain no underscore. -/
theorem padNat_ne_underscore (w n : ℕ) : ∀ c ∈ padNat w n, c ≠ '_' := by
  intro c hc
  obtain ⟨d, hd, rfl⟩ := mem_padNat w n c hc
  exact digitChar_ne_underscore d hd

/-- Helper: padded digit blocks contain no dot. -/
theorem padNat_ne_dot (w n : ℕ) : ∀ c ∈ padNat w n, c ≠ '.' := by
  intro c hc
  obtain ⟨d, hd, rfl⟩ := mem_padNat w n c hc
  exact digitChar_ne_dot d hd

/-- Helper: the underscore is not a member of a padded digit block. -/
theorem underscore_not_mem_padNat (w n : ℕ) : '_' ∉ padNat w n :=
  fun h => padNat_ne_underscore w n '_' h rfl

/-- Helper: the encoded timestamp (for nonnegative input) has no adjacent
underscores and does not end in one. -/
theorem timeChars_sepSafe (f : ℤ) (fps : ℚ) (hf : 0 ≤ f) (hfps : 0 ≤ fps) :
    sepSafe '_' (timeChars f fps) = true := by
  rw [timeChars_eq_padNat f fps hf hfps]
  simp only [List.append_assoc, List.cons_append]
  have hb4 : DigitBlock (padNat 3 (timeFields f fps).ms.toNat) := padNat_digitBlock 3 _ (by omega)
  have hb3 : DigitBlock (padNat 2 (timeFields f fps).seconds.toNat) :=
    padNat_digitBlock 2 _ (by omega)
  have hb2 : DigitBlock (padNat 2 (timeFields f fps).minutes.toNat) :=
    padNat_digitBlock 2 _ (by omega)
  have hs4 : sepSafe '_' (padNat 3 (timeFields f fps).ms.toNat) = true :=
    sepSafe_of_all_ne '_' _ (padNat_ne_underscore 3 _)
  have hs3 : sepSafe '_' ('_' :: padNat 3 (timeFields f fps).ms.toNat) = true :=
    sepSafe_sep_cons_block '_' _ (padNat_ne_underscore 3 _) hb4.1 hs4
  have hs2 : sepSafe '_'
      (padNat 2 (timeFields f fps).seconds.toNat ++ '_' ::
        padNat 3 (timeFields f fps).ms.toNat) = true :=
    sepSafe_append '_' _ _ (padNat_ne_underscore 2 _) hs3
  have hs2' : sepSafe '_'
      ('_' :: (padNat 2 (timeFields f fps).seconds.toNat ++ '_' ::
        padNat 3 (timeFields f fps).ms.toNat)) = true :=
    sepSafe_sep_append '_' _ _ (padNat_ne_underscore 2 _) hb3.1 hs2
  have hs1 : sepSafe '_'
      (padNat 2 (timeFields f fps).minutes.toNat ++ '_' ::
        (padNat 2 (timeFields f fps).seconds.toNat ++ '_' ::
          padNat 3 (timeFields f fps).ms.toNat)) = true :=
    sepSafe_append '_' _ _ (padNat_ne_underscore 2 _) hs2'
  have hs1' : sepSafe '_'
      ('_' :: (padNat 2 (timeFields f fps).minutes.toNat ++ '_' ::
        (padNat 2 (timeFields f fps).seconds.toNat ++ '_' ::
          padNat 3 (timeFields f fps).ms.toNat))) = true :=
    sepSafe_sep_append '_' _ _ (padNat_ne_underscore 2 _) hb2.1 hs1
  exact sepSafe_append '_' _ _ (padNat_ne_underscore 2 _) hs1'

/-- Helper: the encoded timestamp contains no dot. -/
theorem timeChars_ne_dot (f : ℤ) (fps : ℚ) (hf : 0 ≤ f) (hfps : 0 ≤ fps) :
    ∀ c ∈ timeChars f fps, c ≠ '.' := by
  rw [timeChars_eq_padNat f fps hf hfps]
  intro c hc
  simp only [List.append_assoc, List.cons_append, List.mem_append, List.mem_cons] at hc
  rcases hc with h | h | h | h | h | h | h
  · exact padNat_ne_dot 2 _ c h
  · subst h; decide
  · exact padNat_ne_dot 2 _ c h
  · subst h; decide
  · exact padNat_ne_dot 2 _ c h
  · subst h; decide
  · exact padNat_ne_dot 3 _ c h

/-- Helper: on nonnegative input the subtitle-format fields render as
`padNat` blocks. -/
theorem srtTimeChars_eq_padNat (f : ℤ) (fps : ℚ) (hf : 0 ≤ f) (hfps : 0 ≤ fps) :
    srtTimeChars f fps =
      padNat 2 (timeFields f fps).hours.toNat ++ ':' ::
        padNat 2 (timeFields f fps).minutes.toNat ++ ':' ::
        padNat 2 (timeFields f fps).seconds.toNat ++ ',' ::
        padNat 3 (timeFields f fps).ms.toNat := by
  obtain ⟨hh, hm0, _, hs0, _, hms0, _, _, _⟩ := timeFields_spec f fps hf hfps
  simp only [srtTimeChars, padInt, if_neg (not_lt.mpr hh), if_neg (not_lt.mpr hm0),
    if_neg (not_lt.mpr hs0), if_neg (not_lt.mpr hms0)]

/-- Helper: the downstream per-half parsing turns an encoded timestamp into
the subtitle-format timestamp over the same fields. -/
theorem srtOfPart_timeChars (f : ℤ) (fps : ℚ) (hf : 0 ≤ f) (hfps : 0 ≤ fps) :
    srtOfPart (timeChars f fps) = srtTimeChars f fps := by
  rw [timeChars_eq_padNat f fps hf hfps, srtTimeChars_eq_padNat f fps hf hfps]
  simp only [List.append_assoc, List.cons_append]
  simp only [srtOfPart]
  rw [pySplit_single_cut '_' _ _ (underscore_not_mem_padNat 2 _),
    pySplit_single_cut '_' _ _ (underscore_not_mem_padNat 2 _),
    pySplit_single_cut '_' _ _ (underscore_not_mem_padNat 2 _),
    pySplit_single_nosep '_' _ (underscore_not_mem_padNat 3 _)]
  simp only [List.dropLast, List.getLastD, joinSep, List.map_append, List.map_cons,
    if_pos rfl]
  rw [map_subst_of_no_sep _ (padNat_ne_underscore 2 _),
    map_subst_of_no_sep _ (padNat_ne_underscore 2 _),
    map_subst_of_no_sep _ (padNat_ne_underscore 2 _)]
  simp only [List.append_assoc, List.cons_append, if_true, List.getLast]

/-- C7: round-trip of the filename wire format - the artifact is named
`encode(start)__encode(end).png` and applying the downstream parsing (strip
the extension, split on a double underscore, split each half on single
underscores, rejoin all but the last field with colons, and append the last
field after a comma) exactly reconstructs the two subtitle-format
`HH:MM:SS,mmm` timestamps of the interval's start and end. -/
theorem C7_roundtrip (s e : ℤ) (fps : ℚ) (hs : 0 ≤ s) (he : 0 ≤ e) (hfps : 0 ≤ fps) :
    parseNameSrt (mkImgName s e fps) = (srtTimeStr s fps, srtTimeStr e fps) := by
  have hdotTS := timeChars_ne_dot s fps hs hfps
  have hdotTE := timeChars_ne_dot e fps he hfps
  have hsafeTS := timeChars_sepSafe s fps hs hfps
  have hsafeTE := timeChars_sepSafe e fps he hfps
  have hdotX : '.' ∉ timeChars s fps ++ '_' :: '_' :: timeChars e fps := by
    intro hmem
    rcases List.mem_append.mp hmem with h | h
    · exact hdotTS '.' h rfl
    · simp only [List.mem_cons] at h
      rcases h with h | h | h
      · exact absurd h (by decide)
      · exact absurd h (by decide)
      · exact hdotTE '.' h rfl
  have hdata : (mkImgName s e fps).data =
      (timeChars s fps ++ '_' :: '_' :: timeChars e fps) ++ '.' :: ['p', 'n', 'g'] := rfl
  have hstrip : stripExtChars
      ((timeChars s fps ++ '_' :: '_' :: timeChars e fps) ++ '.' :: ['p', 'n', 'g']) =
      timeChars s fps ++ '_' :: '_' :: timeChars e fps := by
    simp only [stripExtChars]
    rw [pySplit_single_cut '.' _ _ hdotX, pySplit_single_nosep '.' ['p', 'n', 'g'] (by decide)]
    simp [joinSep]
  simp only [parseNameSrt]
  rw [hdata, hstrip]
  rw [pySplit_double_cut '_' _ _ hsafeTS, pySplit_double_nosep '_' _ hsafeTE]
  simp only [List.headI, List.getD, List.get?, Option.getD_some]
  rw [srtOfPart_timeChars s fps hs hfps, srtOfPart_timeChars e fps he hfps]
  rfl

/-- C7 witness: the theorem instantiated at the Scenario A interval at 25
fps. -/
theorem C7_roundtrip_witness :
    parseNameSrt (mkImgName 10 29 25) = (srtTimeStr 10 25, srtTimeStr 29 25) :=
  C7_roundtrip 10 29 25 (by norm_num) (by norm_num) (by norm_num)
